import Mathlib

/-!
# Verification of the IBM Model 1 EM trainer (`trainer.py`)

Shallow embedding of the training core: vocabulary extraction, probability
table initialization, the per-iteration EM update, the convergence loop and
the result summarizer.  Python `dict`s holding the probability table are
modelled as association lists (preserving key insertion order); the two
per-iteration scratch dictionaries (`counts` and `totals`) are modelled as
total functions, which is faithful because every read the code performs on
them happens at a key that was previously written (no `KeyError` is
reachable on them in any execution considered here).  Machine floats are
idealized as rationals.  Division mirrors Python: a zero divisor raises
`ZeroDivisionError`, modelled with `Except`.
-/

/-- Splitting a character list on whitespace runs, accumulating the
characters of the current token in reverse. -/
def splitWsAux : List Char → List Char → List String
  | [], [] => []
  | [], acc => [String.mk acc.reverse]
  | c :: cs, acc =>
    if c.isWhitespace then
      match acc with
      | [] => splitWsAux cs []
      | _ => String.mk acc.reverse :: splitWsAux cs []
    else splitWsAux cs (c :: acc)

/-- Python `str.split()` with no argument: split on whitespace runs,
producing no empty tokens (so `"".split() = []`). -/
def pySplit (s : String) : List String :=
  splitWsAux s.data []

/-- The two vocabularies extracted from the corpus, `words['A']` and
`words['B']`.  Python builds `set`s, whose iteration order is arbitrary;
we use duplicate-free lists (`dedup`), which is faithful for every
property below (none depends on set iteration order). -/
structure Words where
  A : List String
  B : List String
deriving DecidableEq

/-- A row of the probability table: one Python `dict` mapping source words
to rationals, in insertion order. -/
abbrev Row := List (String × ℚ)

/-- The probability table: Python dict-of-dicts `P[e][f]`, in insertion
order. -/
abbrev Table := List (String × Row)

/-- `getWords` of `trainer.py`: every distinct word of each language. -/
def getWords (corpus : List (String × String)) : Words :=
  { A := (corpus.flatMap (fun pair => pySplit pair.1)).dedup
    B := (corpus.flatMap (fun pair => pySplit pair.2)).dedup }

/-- Read `row[k]`, with `0` standing for a key that is absent (a read of an
absent key is unreachable in every execution considered below). -/
def rget (row : Row) (k : String) : ℚ :=
  ((row.find? (fun p => p.1 = k)).map Prod.snd).getD 0

/-- Python `row[k] = v`: update in place if the key exists (keeping its
position), otherwise append the new key.  A Python dict holds each key at
most once, so updating the first occurrence is exact. -/
def dset (row : Row) (k : String) (v : ℚ) : Row :=
  match row with
  | [] => [(k, v)]
  | p :: rest => if p.1 = k then (k, v) :: rest else p :: dset rest k v

/-- Read `tp[e][f]` from the nested dict. -/
def tlookup (tp : Table) (e f : String) : ℚ :=
  rget (((tp.find? (fun p => p.1 = e)).map Prod.snd).getD []) f

/-- Python `tp[e][f] = v`, updating the row of the (unique) key `e`.
When `e` is absent Python would raise `KeyError`; that situation is
unreachable in the executions considered below, where it is modelled as a
no-op. -/
def tset (tp : Table) (e f : String) (v : ℚ) : Table :=
  match tp with
  | [] => []
  | p :: rest => if p.1 = e then (p.1, dset p.2 f v) :: rest else p :: tset rest e f v

/-- The key structure of a table: its row keys paired with each row's
column keys. -/
def keyShape (tp : Table) : List (String × List String) :=
  tp.map (fun p => (p.1, p.2.map Prod.fst))

/-- Python exceptions reachable from the trainer.  `corpusFormatError`
models the `CorpusFormatError` of the spec's error taxonomy (§7); no
operation of the code below ever produces it. -/
inductive PyErr where
  | zeroDivisionError
  | corpusFormatError
deriving DecidableEq

/-- Python division: raises `ZeroDivisionError` on a zero divisor. -/
def pydiv (a b : ℚ) : Except PyErr ℚ :=
  if b = 0 then .error .zeroDivisionError else .ok (a / b)

/-- Point update of a function-modelled dict. -/
def fupd (t : String → ℚ) (k : String) (v : ℚ) : String → ℚ :=
  fun k' => if k' = k then v else t k'

/-- Point update of the nested `counts` dict. -/
def fupd2 (c : String → String → ℚ) (e f : String) (v : ℚ) :
    String → String → ℚ :=
  fun e' => if e' = e then fupd (c e) f v else c e'

/-- The scratch state of one EM pass: the `counts` dict and the single
`totals` dict (one function used with keys of both languages, exactly as
the source uses one Python dict for both `totals[e]` and `totals[f]`). -/
abbrev CT := (String → String → ℚ) × (String → ℚ)

/-- `trainer.py` lines 82–84, one step of the inner cross-product loop:
`counts[e][f] += tp[e][f]/totals[e]; totals[f] += tp[e][f]/totals[e]`.
The source computes the quotient twice with identical operands and
unchanged state; it is computed once here. -/
def innerStep (tp : Table) (e : String) (st : CT) (f : String) :
    Except PyErr CT := do
  let q ← pydiv (tlookup tp e f) (st.2 e)
  let counts := fupd2 st.1 e f (st.1 e f + q)
  let totals := fupd st.2 f (st.2 f + q)
  return (counts, totals)

/-- `trainer.py` lines 74–84: processing of one sentence pair.  First loop:
`totals[e] = 0` then `totals[e] += tp[e][f]` over the pair's source
tokens; second loop: the cross-product accumulation. -/
def pairStep (tp : Table) (st : CT) (p : String × String) : Except PyErr CT :=
  let es := pySplit p.1
  let fs := pySplit p.2
  let totals1 := es.foldl
    (fun t e => fs.foldl (fun t' f => fupd t' e (t' e + tlookup tp e f)) (fupd t e 0)) st.2
  es.foldlM (fun st' e => fs.foldlM (innerStep tp e) st') (st.1, totals1)

/-- `trainer.py` lines 67–84: `counts` reset to zero over the `A × B`
key grid, `totals` reset to zero over the `B` keys, then the loop over all
sentence pairs. -/
def pairPhase (corpus : List (String × String)) (tp : Table) : Except PyErr CT :=
  corpus.foldlM (pairStep tp) (fun _ _ => 0, fun _ => 0)

/-- `trainer.py` lines 86–88: the final normalization
`tp[e][f] = counts[e][f] / totals[f]` over `f in words['B']`,
`e in words['A']`. -/
def normalizeStep (words : Words) (counts : String → String → ℚ)
    (totals : String → ℚ) (tp : Table) : Except PyErr Table :=
  words.B.foldlM
    (fun t f => words.A.foldlM
      (fun t' e => do
        let q ← pydiv (counts e f) (totals f)
        return tset t' e f q) t) tp

/-- `trainIteration` of `trainer.py` (lines 52–90).  The `totals`
parameter of the source is shadowed by a fresh dict before any use, so it
is omitted; `deepcopy` of the previous table is value copying. -/
def trainIteration (corpus : List (String × String)) (words : Words)
    (prevTranslationProbabilities : Table) : Except PyErr Table := do
  let translationProbabilities := prevTranslationProbabilities
  let (counts, totals) ← pairPhase corpus translationProbabilities
  normalizeStep words counts totals translationProbabilities

/-- The `totals` accumulator left by the pair loop, observed at one key. -/
def totalsAt (corpus : List (String × String)) (tp : Table) (f : String) :
    Except PyErr ℚ :=
  (pairPhase corpus tp).map (fun ct => ct.2 f)

/-- `initTranslationProbabilities` of `trainer.py` (lines 38–49): every
entry is `1 / len(words['A'])`.  The division sits inside both
comprehensions, so Python evaluates it only when both vocabularies are
non-empty — and then `len(words['A']) > 0`; the rational `1 / 0 = 0` of
the empty-`A` case is therefore dead code, matching the source raising
nothing. -/
def initTranslationProbabilities (corpus : List (String × String)) : Table :=
  let words := getWords corpus
  words.A.map (fun wordEn =>
    (wordEn, words.B.map (fun wordFr => (wordFr, 1 / (words.A.length : ℚ)))))

/-- `isConverged` of `trainer.py` (lines 93–102), with the external
`tableDistance.distance` collaborator passed as a parameter. -/
def isConverged (dist : Table → Table → ℚ)
    (probabiltiesPrev probabiltiesCurr : Table) (epsilon : ℚ) : Bool :=
  decide (dist probabiltiesPrev probabiltiesCurr < epsilon)

/-- The `while not converged` loop of `trainModel` (lines 113–125),
modelled with fuel: `.ok none` means the fuel ran out while the source
loop would still be running. -/
def trainLoop (corpus : List (String × String)) (words : Words)
    (dist : Table → Table → ℚ) (epsilon : ℚ) :
    ℕ → Table → ℕ → Except PyErr (Option (Table × ℕ))
  | 0, _, _ => .ok none
  | Nat.succ fuel, prevTranslationProbabilities, iterations => do
    let translationProbabilities ←
      trainIteration corpus words prevTranslationProbabilities
    if isConverged dist prevTranslationProbabilities translationProbabilities epsilon then
      return some (translationProbabilities, iterations + 1)
    else
      trainLoop corpus words dist epsilon fuel translationProbabilities (iterations + 1)

/-- `trainModel` of `trainer.py` (lines 105–126).  The `totals` dict the
source builds here is ignored by `trainIteration` (shadowed), so it is
not represented. -/
def trainModel (corpus : List (String × String)) (dist : Table → Table → ℚ)
    (epsilon : ℚ) (fuel : ℕ) : Except PyErr (Option (Table × ℕ)) :=
  trainLoop corpus (getWords corpus) dist epsilon fuel
    (initTranslationProbabilities corpus) 0

/-- `k` successive EM passes from a given table. -/
def iterates (corpus : List (String × String)) (words : Words) :
    Table → ℕ → Except PyErr Table
  | t, 0 => .ok t
  | t, Nat.succ k =>
    (trainIteration corpus words t).bind (fun t' => iterates corpus words t' k)

/-- Stable descending insertion, placing an element before the first
strictly smaller (or equal-and-later) one: together with `sortedDesc`
this models Python's stable `sorted(..., key=itemgetter(1), reverse=True)`. -/
def insertDesc (x : String × ℚ) : List (String × ℚ) → List (String × ℚ)
  | [] => [x]
  | y :: l => if x.2 ≥ y.2 then x :: y :: l else y :: insertDesc x l

/-- Stable sort by descending probability. -/
def sortedDesc (l : List (String × ℚ)) : List (String × ℚ) :=
  l.foldr insertDesc []

/-- `summarizeResults` of `trainer.py` (lines 129–143): head of the
descending stable sort of each row.  Python's `[0]` on an empty row would
raise `IndexError`; the `headD` default is unreachable under the
non-empty-row hypothesis of every use below. -/
def summarizeResults (translationProbabilities : Table) : List (String × String) :=
  translationProbabilities.map (fun kv =>
    (kv.1, ((sortedDesc kv.2).headD ("", 0)).1))

/-- The first entry of a row attaining its maximal probability — the
deterministic characterization of the summarizer's choice. -/
def firstMax : List (String × ℚ) → String × ℚ
  | [] => ("", 0)
  | [x] => x
  | x :: y :: l => if x.2 ≥ (firstMax (y :: l)).2 then x else firstMax (y :: l)

/-! ## Reference EM update (spec §4.3)

The algorithm of spec section 4.3, written with *distinct* `Counts` and
`Totals` accumulators and the per-token normalizer
`total_e = Σ_{f in fs} P[e][f]` held separately from `Totals`. -/

/-- Spec §4.3 step 2a: `total_e`, the expected-count normalizer of one
occurrence of `e`, summed over the pair's own source tokens. -/
def refTotalE (tp : Table) (fs : List String) (e : String) : ℚ :=
  (fs.map (tlookup tp e)).sum

/-- Spec §4.3 step 2b for one sentence pair: over the full cross product,
`Counts[e][f] += P[e][f]/total_e` and `Totals[f] += P[e][f]/total_e`,
with `Counts` and `Totals` distinct mappings. -/
def refPairStep (tp : Table) (st : CT) (p : String × String) : CT :=
  let es := pySplit p.1
  let fs := pySplit p.2
  es.foldl (fun st' e => fs.foldl (fun st'' f =>
    (fupd2 st''.1 e f (st''.1 e f + tlookup tp e f / refTotalE tp fs e),
     fupd st''.2 f (st''.2 f + tlookup tp e f / refTotalE tp fs e))) st') st

/-- Spec §4.3 steps 1–2 over the whole corpus, both accumulators reset
once at the start. -/
def refAccumulate (corpus : List (String × String)) (tp : Table) : CT :=
  corpus.foldl (refPairStep tp) (fun _ _ => 0, fun _ => 0)

/-- Spec §4.3 step 3: the new table, `P[e][f] = Counts[e][f] / Totals[f]`
for every vocabulary pair. -/
def refIteration (corpus : List (String × String)) (tp : Table) : Table :=
  let words := getWords corpus
  let ct := refAccumulate corpus tp
  words.A.map (fun e => (e, words.B.map (fun f => (f, ct.1 e f / ct.2 f))))

/-! ## Concrete inputs used by the witnesses and counterexamples -/

/-- Scenario A of spec §8: the single pair `{"A": "a b", "B": "x y"}`. -/
def scenarioA : List (String × String) := [("a b", "x y")]

/-- A corpus in which the same string `x` occurs in both vocabularies. -/
def overlapCorpus : List (String × String) := [("x", "x y")]

/-- A corpus whose second entry has an empty target-side (`A`) sentence,
and whose source word `y` occurs nowhere else. -/
def emptyACorpus : List (String × String) := [("a", "x"), ("", "y")]

/-- A corpus whose second entry has an empty source-side (`B`) sentence. -/
def emptyBCorpus : List (String × String) := [("a", "x"), ("b", "")]

/-- A corpus whose source-side vocabulary is empty. -/
def emptyBVocabCorpus : List (String × String) := [("a", "")]

/-- A corpus with one target word and two source words. -/
def skewCorpus : List (String × String) := [("a", "x y")]

/-- A row with an exact tie between `f1` and `f2`. -/
def tieTable : Table := [("e", [("f1", (1 : ℚ)/2), ("f2", 1/2)])]

/-- The always-zero distance function, used to discharge the
Distance-Function collaborator hypotheses at concrete inputs. -/
def distZero : Table → Table → ℚ := fun _ _ => 0

/-! ## Decidability instances and reducibility

Batteries marks the rational arithmetic operations `@[irreducible]`; the
concrete evaluations below need them reducible. -/

instance : DecidableEq (Option (Table × ℕ)) := fun a b => a.instDecidableEq b

deriving instance DecidableEq for Except

unseal Rat.mul Rat.add Rat.inv Rat.sub

/-! ## Basic dictionary lemmas -/

theorem fupd_same (t : String → ℚ) (k : String) (v : ℚ) : fupd t k v k = v := by
  simp [fupd]

theorem fupd_other (t : String → ℚ) (k k' : String) (v : ℚ) (h : k' ≠ k) :
    fupd t k v k' = t k' := by
  simp [fupd, h]

theorem dset_rget_same (row : Row) (k : String) (v : ℚ) :
    rget (dset row k v) k = v := by
  induction row with
  | nil => simp [dset, rget, List.find?]
  | cons p rest ih =>
    by_cases h : p.1 = k
    · simp [dset, h, rget, List.find?]
    · simpa [dset, h, rget, List.find?] using ih

theorem dset_rget_other (row : Row) (k k' : String) (v : ℚ) (h : k' ≠ k) :
    rget (dset row k v) k' = rget row k' := by
  induction row with
  | nil => simp [dset, rget, List.find?, Ne.symm h]
  | cons p rest ih =>
    obtain ⟨pk, pv⟩ := p
    by_cases hp : pk = k
    · subst hp
      simp [dset, rget, List.find?, Ne.symm h]
    · by_cases hp' : pk = k'
      · subst hp'
        simp [dset, hp, rget, List.find?]
      · simpa [dset, hp, rget, List.find?, hp'] using ih

theorem dset_keys_of_mem (row : Row) (k : String) (v : ℚ)
    (h : k ∈ row.map Prod.fst) :
    (dset row k v).map Prod.fst = row.map Prod.fst := by
  induction row with
  | nil => simp at h
  | cons p rest ih =>
    by_cases hp : p.1 = k
    · simp [dset, hp]
    · simp only [List.map_cons, List.mem_cons] at h
      rcases h with h | h
    

      · exact absurd h.symm hp
      · simp [dset, hp, ih h]

theorem tset_keys (tp : Table) (e f : String) (v : ℚ) :
    (tset tp e f v).map Prod.fst = tp.map Prod.fst := by
  induction tp with
  | nil => rfl
  | cons p rest ih =>
    by_cases hp : p.1 = e
    · simp [tset, hp]
    · simp [tset, hp, ih]

theorem tset_tlookup_same (tp : Table) (e f : String) (v : ℚ)
    (h : e ∈ tp.map Prod.fst) :
    tlookup (tset tp e f v) e f = v := by
  induction tp with
  | nil => simp at h
  | cons p rest ih =>
    by_cases hp : p.1 = e
    · simp [tset, hp, tlookup, List.find?, dset_rget_same]
    · simp only [List.map_cons, List.mem_cons] at h
      rcases h with h | h
      · exact absurd h.symm hp
      · simpa [tset, hp, tlookup, List.find?] using ih h

theorem tset_tlookup_other (tp : Table) (e f e' f' : String) (v : ℚ)
    (h : e' ≠ e ∨ f' ≠ f) :
    tlookup (tset tp e f v) e' f' = tlookup tp e' f' := by
  induction tp with
  | nil => rfl
  | cons p rest ih =>
    obtain ⟨pk, pv⟩ := p
    by_cases hp : pk = e
    · subst hp
      by_cases hp' : pk = e'
      · subst hp'
        rcases h with h | h
        · exact absurd rfl h
        · simp [tset, tlookup, List.find?, dset_rget_other _ _ _ _ h]
      · simp [tset, tlookup, List.find?, hp']
    · by_cases hp' : pk = e'
      · subst hp'
        simp [tset, hp, tlookup, List.find?]
      · simpa [tset, hp, tlookup, List.find?, hp'] using ih

theorem tlookup_mem_of_ne_zero (tp : Table) (e f : String)
    (h : tlookup tp e f ≠ 0) : e ∈ tp.map Prod.fst := by
  induction tp with
  | nil => simp [tlookup, rget, List.find?] at h
  | cons p rest ih =>
    by_cases hp : p.1 = e
    · simp [hp]
    · simp only [tlookup, List.find?, hp] at h
      simp only [List.map_cons, List.mem_cons]
      exact Or.inr (ih (by simpa [tlookup] using h))

theorem keyShape_tset (tp : Table) (e f : String) (v : ℚ)
    (h : ∀ p ∈ tp, f ∈ p.2.map Prod.fst) :
    keyShape (tset tp e f v) = keyShape tp := by
  induction tp with
  | nil => rfl
  | cons p rest ih =>
    by_cases hp : p.1 = e
    · have hf := h p (by simp)
      simp [tset, hp, keyShape, dset_keys_of_mem _ _ _ hf]
    · have := ih (fun q hq => h q (by simp [hq]))
      simpa [tset, hp, keyShape] using this

/-! ## Fold machinery over the `Except` monad -/

theorem except_bind_ok {α β : Type} (a : α) (k : α → Except PyErr β) :
    (Except.ok a >>= k) = k a := rfl

theorem except_bind_error {α β : Type} (e : PyErr) (k : α → Except PyErr β) :
    (Except.error e >>= k : Except PyErr β) = Except.error e := rfl

theorem foldlM_sim {σ τ α : Type} (R : σ → τ → Prop) (f : σ → α → Except PyErr σ)
    (g : τ → α → τ) (l : List α) :
    ∀ (s₀ : σ) (t₀ : τ), R s₀ t₀ →
      (∀ s t x, x ∈ l → R s t → ∃ s', f s x = .ok s' ∧ R s' (g t x)) →
      ∃ s', l.foldlM f s₀ = .ok s' ∧ R s' (l.foldl g t₀) := by
  induction l with
  | nil => exact fun s₀ t₀ h _ => ⟨s₀, rfl, h⟩
  | cons x l ih =>
    intro s₀ t₀ h hstep
    obtain ⟨s₁, hf, hR⟩ := hstep s₀ t₀ x (by simp) h
    obtain ⟨s', hfold, hR'⟩ := ih s₁ (g t₀ x) hR
      (fun s t y hy hRst => hstep s t y (by simp [hy]) hRst)
    refine ⟨s', ?_, by simpa using hR'⟩
    simpa [List.foldlM_cons, hf, except_bind_ok] using hfold

theorem foldlM_inv {σ α : Type} (P : σ → Prop) (f : σ → α → Except PyErr σ)
    (l : List α) :
    ∀ (s₀ r : σ), l.foldlM f s₀ = .ok r → P s₀ →
      (∀ s x r', x ∈ l → P s → f s x = .ok r' → P r') → P r := by
  induction l with
  | nil =>
    intro s₀ r h hP _
    cases h
    exact hP
  | cons x l ih =>
    intro s₀ r h hP hstep
    rcases hf : f s₀ x with e | s₁
    · rw [List.foldlM_cons, hf, except_bind_error] at h
      exact Except.noConfusion h
    · rw [List.foldlM_cons, hf, except_bind_ok] at h
      exact ih s₁ r h (hstep s₀ x s₁ (by simp) hP hf)
        (fun s y r' hy hPs hfy => hstep s y r' (by simp [hy]) hPs hfy)

theorem foldlM_error_zero {σ α : Type} (f : σ → α → Except PyErr σ) (l : List α)
    (hf : ∀ s x e, x ∈ l → f s x = .error e → e = .zeroDivisionError) :
    ∀ (s₀ : σ) (e : PyErr), l.foldlM f s₀ = .error e → e = .zeroDivisionError := by
  induction l with
  | nil =>
    intro s₀ e h
    cases h
  | cons x l ih =>
    intro s₀ e h
    rcases hfx : f s₀ x with e' | s₁
    · rw [List.foldlM_cons, hfx, except_bind_error] at h
      have he : e' = e := by
        cases h
        rfl
      exact he ▸ hf s₀ x e' (by simp) hfx
    · rw [List.foldlM_cons, hfx, except_bind_ok] at h
      exact ih (fun s y e'' hy hfy => hf s y e'' (by simp [hy]) hfy) s₁ e h

theorem foldlM_all_ok {σ α : Type} (f : σ → α → Except PyErr σ) (l : List α) :
    ∀ (s₀ r : σ), l.foldlM f s₀ = .ok r → ∀ x ∈ l, ∃ s s', f s x = .ok s' := by
  induction l with
  | nil =>
    intro s₀ r _ x hx
    simp at hx
  | cons y l ih =>
    intro s₀ r h x hx
    rcases hfy : f s₀ y with e | s₁
    · rw [List.foldlM_cons, hfy, except_bind_error] at h
      exact Except.noConfusion h
    · rw [List.foldlM_cons, hfy, except_bind_ok] at h
      rcases List.mem_cons.mp hx with rfl | hx'
      · exact ⟨s₀, s₁, hfy⟩
      · exact ih s₁ r h x hx'

theorem pydiv_ok {a b : ℚ} (h : b ≠ 0) : pydiv a b = .ok (a / b) := by
  simp [pydiv, h]

theorem pydiv_error {a b : ℚ} {e : PyErr} (h : pydiv a b = .error e) :
    e = .zeroDivisionError := by
  by_cases hb : b = 0
  · simp [pydiv, hb] at h
    exact h.symm
  · simp [pydiv, hb] at h

theorem pydiv_ok_ne_zero {a b : ℚ} {q : ℚ} (h : pydiv a b = .ok q) : b ≠ 0 := by
  intro hb
  simp [pydiv, hb] at h

theorem trainIteration_of_pairPhase_ok {corpus : List (String × String)}
    {words : Words} {prev : Table} {c : String → String → ℚ} {t : String → ℚ}
    (h : pairPhase corpus prev = .ok (c, t)) :
    trainIteration corpus words prev = normalizeStep words c t prev := by
  simp only [trainIteration, h, except_bind_ok]

theorem trainIteration_of_pairPhase_error {corpus : List (String × String)}
    {words : Words} {prev : Table} {e : PyErr}
    (h : pairPhase corpus prev = .error e) :
    trainIteration corpus words prev = .error e := by
  simp only [trainIteration, h]
  rfl

/-! ## Lookup in tables built by comprehension -/

theorem rget_map (B : List String) (w : String → ℚ) (f₀ : String) (h : f₀ ∈ B) :
    rget (B.map (fun f => (f, w f))) f₀ = w f₀ := by
  induction B with
  | nil => simp at h
  | cons b B ih =>
    by_cases hb : b = f₀
    · subst hb
      simp [rget, List.find?]
    · rcases List.mem_cons.mp h with rfl | h'
      · exact absurd rfl hb
      · simpa [rget, List.find?, hb] using ih h'

theorem tlookup_map (A B : List String) (v : String → String → ℚ)
    (e₀ f₀ : String) (hA : e₀ ∈ A) (hB : f₀ ∈ B) :
    tlookup (A.map (fun e => (e, B.map (fun f => (f, v e f))))) e₀ f₀ = v e₀ f₀ := by
  induction A with
  | nil => simp at hA
  | cons a A ih =>
    by_cases ha : a = e₀
    · subst ha
      simp only [List.map_cons, tlookup, List.find?]
      simpa [tlookup] using rget_map B (v a) f₀ hB
    · rcases List.mem_cons.mp hA with rfl | hA'
      · exact absurd rfl ha
      · simpa [tlookup, List.find?, ha] using ih hA'

/-! ## Claim C2 — initial probabilities

The spec says every initial entry is `1 / |source vocabulary|` and every
target word's row sums to 1.  The code divides by `len(words['A'])`, the
*target* vocabulary size — consistent with its own reading
`P[e][s] = p(e|s)`, under which each source word's *column* sums to 1. -/

/-- C2, counterexample: on the corpus `[{"A": "a", "B": "x y"}]` the source
vocabulary has two words, yet every initial entry is `1 = 1/|A-vocab|`,
not `1/2 = 1/|source vocab|`, and the row of `a` sums to `2`, not `1`. -/
theorem c2_counterexample :
    tlookup (initTranslationProbabilities skewCorpus) "a" "x" = 1 ∧
    tlookup (initTranslationProbabilities skewCorpus) "a" "y" = 1 ∧
    (getWords skewCorpus).B.length = 2 ∧
    tlookup (initTranslationProbabilities skewCorpus) "a" "x" ≠
      1 / ((getWords skewCorpus).B.length : ℚ) ∧
    tlookup (initTranslationProbabilities skewCorpus) "a" "x" +
      tlookup (initTranslationProbabilities skewCorpus) "a" "y" ≠ 1 := by
  decide

/-- C2 (amended): for a corpus with non-empty target (`A`) vocabulary,
every entry of the initial table is `1 / |target vocabulary|`, and
consequently for every *source* word `f` the *column* sum over all target
words equals exactly 1. -/
theorem c2_init_uniform (corpus : List (String × String))
    (hA : (getWords corpus).A ≠ []) :
    (∀ e ∈ (getWords corpus).A, ∀ f ∈ (getWords corpus).B,
      tlookup (initTranslationProbabilities corpus) e f =
        1 / ((getWords corpus).A.length : ℚ)) ∧
    (∀ f ∈ (getWords corpus).B,
      (((getWords corpus).A.map
        (fun e => tlookup (initTranslationProbabilities corpus) e f)).sum) = 1) := by
  have hlen0 : (getWords corpus).A.length ≠ 0 := by
    simpa [List.length_eq_zero] using hA
  have hlen : ((getWords corpus).A.length : ℚ) ≠ 0 := Nat.cast_ne_zero.mpr hlen0
  have hent : ∀ e ∈ (getWords corpus).A, ∀ f ∈ (getWords corpus).B,
      tlookup (initTranslationProbabilities corpus) e f =
        1 / ((getWords corpus).A.length : ℚ) := by
    intro e he f hf
    simpa [initTranslationProbabilities] using
      tlookup_map (getWords corpus).A (getWords corpus).B
        (fun _ _ => 1 / ((getWords corpus).A.length : ℚ)) e f he hf
  refine ⟨hent, ?_⟩
  intro f hf
  have hmap : ((getWords corpus).A.map
      (fun e => tlookup (initTranslationProbabilities corpus) e f)) =
      ((getWords corpus).A.map (fun _ => 1 / ((getWords corpus).A.length : ℚ))) :=
    List.map_congr_left (fun e he => hent e he f hf)
  rw [hmap, List.map_const', List.sum_replicate, nsmul_eq_mul]
  field_simp

/-- C2, witness: on the skew corpus the column of `x` sums to 1. -/
theorem c2_witness :
    (getWords skewCorpus).A ≠ [] ∧
    ∀ f ∈ (getWords skewCorpus).B,
      (((getWords skewCorpus).A.map
        (fun e => tlookup (initTranslationProbabilities skewCorpus) e f)).sum) = 1 :=
  ⟨by decide, (c2_init_uniform skewCorpus (by decide)).2⟩

/-! ## Claim C8 — empty source vocabulary at initialization -/

/-- C8, counterexample: on the corpus `[{"A": "a", "B": ""}]` the source
vocabulary is empty, yet initialization does not fail at all: it returns
the table mapping `a` to an empty row, and the whole training run then
succeeds, returning that same degenerate table after one pass. -/
theorem c8_counterexample :
    (getWords emptyBVocabCorpus).B = [] ∧
    initTranslationProbabilities emptyBVocabCorpus = [("a", [])] ∧
    trainModel emptyBVocabCorpus distZero 1 2 = .ok (some ([("a", [])], 1)) := by
  decide

/-- C8 (amended): an empty source vocabulary does not make initialization
fail — the table maps each target word to an empty row, and no division by
zero is performed because the per-entry division is evaluated only once
per existing source word. -/
theorem c8_empty_source_vocab (corpus : List (String × String))
    (h : (getWords corpus).B = []) :
    initTranslationProbabilities corpus =
      (getWords corpus).A.map (fun e => (e, [])) := by
  simp [initTranslationProbabilities, h]

/-- C8, witness at the concrete corpus `[{"A": "a", "B": ""}]`. -/
theorem c8_witness :
    (getWords emptyBVocabCorpus).B = [] ∧
    initTranslationProbabilities emptyBVocabCorpus =
      (getWords emptyBVocabCorpus).A.map (fun e => (e, [])) :=
  ⟨by decide, c8_empty_source_vocab emptyBVocabCorpus (by decide)⟩

/-! ## Claim C3 — Scenario A -/

/-- C3: on the corpus `[{"A": "a b", "B": "x y"}]` the initial table has
all four entries `1/2`; one EM iteration returns the very same table; and
whenever the Distance Function collaborator returns `0` on two identical
tables, `trainModel` converges on the first pass with iteration count `1`
for every positive epsilon (and any fuel allowing at least one pass). -/
theorem c3_scenarioA (dist : Table → Table → ℚ) (epsilon : ℚ) (fuel : ℕ)
    (heps : 0 < epsilon) (hdist : ∀ u, dist u u = 0) (hfuel : 1 ≤ fuel) :
    (tlookup (initTranslationProbabilities scenarioA) "a" "x" = 1/2 ∧
     tlookup (initTranslationProbabilities scenarioA) "a" "y" = 1/2 ∧
     tlookup (initTranslationProbabilities scenarioA) "b" "x" = 1/2 ∧
     tlookup (initTranslationProbabilities scenarioA) "b" "y" = 1/2) ∧
    trainIteration scenarioA (getWords scenarioA)
      (initTranslationProbabilities scenarioA) =
      .ok (initTranslationProbabilities scenarioA) ∧
    trainModel scenarioA dist epsilon fuel =
      .ok (some (initTranslationProbabilities scenarioA, 1)) := by
  have hiter : trainIteration scenarioA (getWords scenarioA)
      (initTranslationProbabilities scenarioA) =
      .ok (initTranslationProbabilities scenarioA) := by decide
  refine ⟨by decide, hiter, ?_⟩
  obtain ⟨m, rfl⟩ : ∃ m, fuel = m + 1 := ⟨fuel - 1, by omega⟩
  have hconv : isConverged dist (initTranslationProbabilities scenarioA)
      (initTranslationProbabilities scenarioA) epsilon = true := by
    simp [isConverged, hdist, heps]
  simp only [trainModel, trainLoop, hiter, except_bind_ok, hconv, if_true]
  rfl

/-- C3, witness: the zero distance function, epsilon 1, fuel 3. -/
theorem c3_witness :
    (0 : ℚ) < 1 ∧
    trainModel scenarioA distZero 1 3 =
      .ok (some (initTranslationProbabilities scenarioA, 1)) :=
  ⟨by norm_num,
   (c3_scenarioA distZero 1 3 (by norm_num) (fun u => rfl) (by norm_num)).2.2⟩

/-! ## Claim C5 — the result summarizer -/

theorem insertDesc_ne_nil (x : String × ℚ) (s : List (String × ℚ)) :
    insertDesc x s ≠ [] := by
  cases s with
  | nil => simp [insertDesc]
  | cons a t =>
    by_cases hx : x.2 ≥ a.2 <;> simp [insertDesc, hx]

theorem sortedDesc_ne_nil (l : List (String × ℚ)) (h : l ≠ []) :
    sortedDesc l ≠ [] := by
  cases l with
  | nil => exact absurd rfl h
  | cons x t => exact insertDesc_ne_nil x (sortedDesc t)

theorem headD_insertDesc (x a : String × ℚ) (t : List (String × ℚ))
    (d : String × ℚ) :
    (insertDesc x (a :: t)).headD d = if x.2 ≥ a.2 then x else a := by
  by_cases hx : x.2 ≥ a.2 <;> simp [insertDesc, hx]

theorem headD_sortedDesc (l : List (String × ℚ)) (h : l ≠ []) :
    (sortedDesc l).headD ("", 0) = firstMax l := by
  induction l with
  | nil => exact absurd rfl h
  | cons x t ih =>
    cases t with
    | nil => rfl
    | cons y t' =>
      have hne : sortedDesc (y :: t') ≠ [] := sortedDesc_ne_nil _ (by simp)
      obtain ⟨a, s, hs⟩ := List.exists_cons_of_ne_nil hne
      have hhead : a = firstMax (y :: t') := by
        have := ih (by simp)
        rwa [hs, List.headD_cons] at this
      have : sortedDesc (x :: y :: t') = insertDesc x (a :: s) := by
        simp [sortedDesc, List.foldr_cons]
        rw [← List.foldr_cons (f := insertDesc)]
        show insertDesc x (sortedDesc (y :: t')) = _
        rw [hs]
      rw [this, headD_insertDesc, hhead]
      simp [firstMax]

theorem firstMax_mem (l : List (String × ℚ)) (h : l ≠ []) : firstMax l ∈ l := by
  induction l with
  | nil => exact absurd rfl h
  | cons x t ih =>
    cases t with
    | nil => simp [firstMax]
    | cons y t' =>
      by_cases hx : x.2 ≥ (firstMax (y :: t')).2
      · simp [firstMax, hx]
      · have := ih (by simp)
        simp only [firstMax, if_neg hx]
        exact List.mem_cons_of_mem x this

theorem firstMax_max (l : List (String × ℚ)) (z : String × ℚ) (hz : z ∈ l) :
    z.2 ≤ (firstMax l).2 := by
  induction l with
  | nil => simp at hz
  | cons x t ih =>
    cases t with
    | nil =>
      rcases List.mem_cons.mp hz with rfl | hz'
      · simp [firstMax]
      · simp at hz'
    | cons y t' =>
      by_cases hx : x.2 ≥ (firstMax (y :: t')).2
      · simp only [firstMax, if_pos hx]
        rcases List.mem_cons.mp hz with rfl | hz'
        · exact le_refl _
        · exact le_trans (ih hz') hx
      · simp only [firstMax, if_neg hx]
        rcases List.mem_cons.mp hz with rfl | hz'
        · exact le_of_not_ge hx
        · exact ih hz'

/-- C5: for a table with non-empty rows, the summarizer maps each target
word to the *first* entry of its row attaining the row's maximal
probability — in particular an argmax, and a choice fully determined by
the row's contents, so repeated applications to the same table return the
same mapping (the stable descending sort puts the earliest maximal entry
first). -/
theorem c5_summarizer (tp : Table) (h : ∀ kv ∈ tp, kv.2 ≠ []) :
    summarizeResults tp = tp.map (fun kv => (kv.1, (firstMax kv.2).1)) ∧
    ∀ kv ∈ tp, firstMax kv.2 ∈ kv.2 ∧ ∀ z ∈ kv.2, z.2 ≤ (firstMax kv.2).2 := by
  constructor
  · exact List.map_congr_left (fun kv hkv => by
      rw [headD_sortedDesc _ (h kv hkv)])
  · exact fun kv hkv =>
      ⟨firstMax_mem _ (h kv hkv), fun z hz => firstMax_max _ z hz⟩

/-- C5, witness: on the exact-tie table the summarizer picks the first
maximal entry, `f1`. -/
theorem c5_witness :
    (∀ kv ∈ tieTable, kv.2 ≠ []) ∧
    summarizeResults tieTable =
      tieTable.map (fun kv => (kv.1, (firstMax kv.2).1)) ∧
    summarizeResults tieTable = [("e", "f1")] :=
  ⟨by decide, (c5_summarizer tieTable (by decide)).1, by decide⟩

/-! ## Claims C4 and C9 — the convergence loop -/

theorem iterates_zero (corpus : List (String × String)) (words : Words)
    (t : Table) : iterates corpus words t 0 = .ok t := rfl

theorem iterates_succ_of_ok {corpus : List (String × String)} {words : Words}
    {prev t1 : Table} (hit : trainIteration corpus words prev = .ok t1)
    (k : ℕ) : iterates corpus words prev (k + 1) = iterates corpus words t1 k := by
  simp [iterates, hit, Except.bind]

theorem trainLoop_spec (corpus : List (String × String)) (words : Words)
    (dist : Table → Table → ℚ) (epsilon : ℚ) (fuel : ℕ) :
    ∀ (prev : Table) (i : ℕ) (t : Table) (n : ℕ),
      trainLoop corpus words dist epsilon fuel prev i = .ok (some (t, n)) →
      ∃ m, n = i + m ∧ 1 ≤ m ∧ iterates corpus words prev m = .ok t ∧
        ∀ k a b, k < m → iterates corpus words prev k = .ok a →
          iterates corpus words prev (k + 1) = .ok b →
          (dist a b < epsilon ↔ k + 1 = m) := by
  induction fuel with
  | zero =>
    intro prev i t n h
    exact Option.noConfusion (Except.ok.inj h)
  | succ fuel ih =>
    intro prev i t n h
    rcases hit : trainIteration corpus words prev with e | t1
    · rw [trainLoop, hit, except_bind_error] at h
      exact Except.noConfusion h
    · rw [trainLoop, hit, except_bind_ok] at h
      by_cases hc : isConverged dist prev t1 epsilon
      · rw [if_pos hc] at h
        have hpair : (t1, i + 1) = (t, n) :=
          Option.some.inj (Except.ok.inj h)
        have ht : t1 = t := congrArg Prod.fst hpair
        have hn : i + 1 = n := congrArg Prod.snd hpair
        subst ht
        subst hn
        refine ⟨1, rfl, le_refl 1, ?_, ?_⟩
        · rw [iterates_succ_of_ok hit, iterates_zero]
        · intro k a b hk ha hb
          interval_cases k
          have haa : prev = a := Except.ok.inj (by rw [← ha, iterates_zero])
          have hbb : t1 = b := by
            rw [iterates_succ_of_ok hit, iterates_zero] at hb
            exact Except.ok.inj hb
          subst haa
          subst hbb
          have hlt : dist prev t1 < epsilon := by
            simpa [isConverged] using hc
          exact iff_of_true hlt rfl
      · rw [if_neg hc] at h
        obtain ⟨m', hn, hm'1, hiter', hchain'⟩ := ih t1 (i + 1) t n h
        refine ⟨m' + 1, by omega, by omega, ?_, ?_⟩
        · rw [iterates_succ_of_ok hit]
          exact hiter'
        · intro k a b hk ha hb
          cases k with
          | zero =>
            have haa : prev = a := Except.ok.inj (by rw [← ha, iterates_zero])
            have hbb : t1 = b := by
              rw [iterates_succ_of_ok hit, iterates_zero] at hb
              exact Except.ok.inj hb
            subst haa
            subst hbb
            have hnlt : ¬ dist prev t1 < epsilon := by
              simpa [isConverged] using hc
            exact iff_of_false hnlt (by omega)
          | succ k' =>
            rw [iterates_succ_of_ok hit] at ha hb
            have hiff := hchain' k' a b (by omega) ha hb
            rw [hiff]
            omega

/-- C4: whenever `trainModel` terminates normally with result `(t, n)`,
the run consists of exactly `n` EM passes chained from the uniform initial
table; every completed pass increments the count once, every pass before
the last had collaborator distance `≥ epsilon` to its predecessor, and the
`n`-th pass is exactly the first whose distance to its predecessor fell
strictly below `epsilon`, its output being the returned table. -/
theorem c4_convergence_loop (corpus : List (String × String))
    (dist : Table → Table → ℚ) (epsilon : ℚ) (fuel : ℕ) (t : Table) (n : ℕ)
    (h : trainModel corpus dist epsilon fuel = .ok (some (t, n))) :
    1 ≤ n ∧
    iterates corpus (getWords corpus) (initTranslationProbabilities corpus) n
      = .ok t ∧
    ∀ k a b, k < n →
      iterates corpus (getWords corpus) (initTranslationProbabilities corpus) k
        = .ok a →
      iterates corpus (getWords corpus) (initTranslationProbabilities corpus)
        (k + 1) = .ok b →
      (dist a b < epsilon ↔ k + 1 = n) := by
  obtain ⟨m, hm, h1, hiter, hchain⟩ :=
    trainLoop_spec corpus (getWords corpus) dist epsilon fuel
      (initTranslationProbabilities corpus) 0 t n h
  have hnm : n = m := by omega
  subst hnm
  exact ⟨h1, hiter, hchain⟩

/-- C4, witness at Scenario A with the zero distance function. -/
theorem c4_witness :
    trainModel scenarioA distZero 1 3 =
      .ok (some (initTranslationProbabilities scenarioA, 1)) ∧
    1 ≤ 1 ∧
    iterates scenarioA (getWords scenarioA)
      (initTranslationProbabilities scenarioA) 1 =
      .ok (initTranslationProbabilities scenarioA) :=
  ⟨by decide,
   (c4_convergence_loop scenarioA distZero 1 3
     (initTranslationProbabilities scenarioA) 1 (by decide)).1,
   (c4_convergence_loop scenarioA distZero 1 3
     (initTranslationProbabilities scenarioA) 1 (by decide)).2.1⟩

/-- C9: `trainModel` always performs at least one full EM pass before its
first convergence test, so every normal termination reports an iteration
count of at least 1, however large `epsilon` is. -/
theorem c9_at_least_one_pass (corpus : List (String × String))
    (dist : Table → Table → ℚ) (epsilon : ℚ) (fuel : ℕ) (t : Table) (n : ℕ)
    (h : trainModel corpus dist epsilon fuel = .ok (some (t, n))) : 1 ≤ n := by
  obtain ⟨m, hm, h1, -, -⟩ :=
    trainLoop_spec corpus (getWords corpus) dist epsilon fuel
      (initTranslationProbabilities corpus) 0 t n h
  omega

/-- C9, witness: the degenerate corpus converges with a huge epsilon and
still reports one pass, not zero. -/
theorem c9_witness :
    trainModel emptyBVocabCorpus distZero 1000000 2 =
      .ok (some ([("a", [])], 1)) ∧ 1 ≤ 1 :=
  ⟨by decide, c9_at_least_one_pass emptyBVocabCorpus distZero 1000000 2
    [("a", [])] 1 (by decide)⟩

/-! ## Claim C10 — key-shape preservation -/

theorem keyShape_map_fst (tp : Table) :
    (keyShape tp).map Prod.fst = tp.map Prod.fst := by
  simp [keyShape, List.map_map]

theorem trainIteration_ok_inv {corpus : List (String × String)} {words : Words}
    {prev t : Table} (h : trainIteration corpus words prev = .ok t) :
    ∃ c tt, pairPhase corpus prev = .ok (c, tt) ∧
      normalizeStep words c tt prev = .ok t := by
  rcases hp : pairPhase corpus prev with e | ct
  · rw [trainIteration_of_pairPhase_error hp] at h
    exact Except.noConfusion h
  · obtain ⟨c, tt⟩ := ct
    refine ⟨c, tt, rfl, ?_⟩
    rw [trainIteration_of_pairPhase_ok hp] at h
    exact h

theorem normalizeStep_keyShape (words : Words) (c : String → String → ℚ)
    (tt : String → ℚ) (prev u : Table)
    (hcolsB : ∀ p ∈ prev, ∀ f ∈ words.B, f ∈ p.2.map Prod.fst)
    (h : normalizeStep words c tt prev = .ok u) :
    keyShape u = keyShape prev := by
  unfold normalizeStep at h
  refine foldlM_inv (fun tb => keyShape tb = keyShape prev) _ words.B prev u h rfl ?_
  intro tb f tb' hf hP hstep
  refine foldlM_inv (fun tb2 => keyShape tb2 = keyShape prev) _ words.A tb tb' hstep hP ?_
  intro t2 e t2' _ hP2 hstep2
  rcases hq : pydiv (c e f) (tt f) with err | q
  · rw [hq, except_bind_error] at hstep2
    exact Except.noConfusion hstep2
  · rw [hq, except_bind_ok] at hstep2
    have ht2' : tset t2 e f q = t2' := Except.ok.inj hstep2
    have hfmem : ∀ p ∈ t2, f ∈ p.2.map Prod.fst := by
      intro p hp
      have hks : (p.1, p.2.map Prod.fst) ∈ keyShape prev := by
        rw [← hP2]
        exact List.mem_map_of_mem _ hp
      obtain ⟨q', hq', hq'eq⟩ := List.mem_map.mp hks
      have : p.2.map Prod.fst = q'.2.map Prod.fst :=
        (congrArg Prod.snd hq'eq).symm
      rw [this]
      exact hcolsB q' hq' f hf
    rw [← ht2', keyShape_tset t2 e f q hfmem]
    exact hP2

/-- C10: if the previous table has exactly one row per word of the target
(`A`) vocabulary and each row exactly one entry per word of the source
(`B`) vocabulary, then a successful EM pass returns a table with exactly
the same key structure — same rows in the same order, each with the same
column keys: the output starts from the previous table and the final
normalization only overwrites existing entries. -/
theorem c10_key_shape (corpus : List (String × String)) (prev t : Table)
    (hrows : (prev.map Prod.fst).Perm (getWords corpus).A)
    (hcols : ∀ p ∈ prev, (p.2.map Prod.fst).Perm (getWords corpus).B)
    (h : trainIteration corpus (getWords corpus) prev = .ok t) :
    keyShape t = keyShape prev ∧
    (t.map Prod.fst).Perm (getWords corpus).A ∧
    ∀ p ∈ t, (p.2.map Prod.fst).Perm (getWords corpus).B := by
  obtain ⟨c, tt, hp, hn⟩ := trainIteration_ok_inv h
  have hcolsB : ∀ p ∈ prev, ∀ f ∈ (getWords corpus).B, f ∈ p.2.map Prod.fst :=
    fun p hp' f hf => ((hcols p hp').mem_iff).mpr hf
  have hshape : keyShape t = keyShape prev :=
    normalizeStep_keyShape (getWords corpus) c tt prev t hcolsB hn
  refine ⟨hshape, ?_, ?_⟩
  · have : t.map Prod.fst = prev.map Prod.fst := by
      rw [← keyShape_map_fst, hshape, keyShape_map_fst]
    rw [this]
    exact hrows
  · intro p hp'
    have hks : (p.1, p.2.map Prod.fst) ∈ keyShape prev := by
      rw [← hshape]
      exact List.mem_map_of_mem _ hp'
    obtain ⟨q', hq', hq'eq⟩ := List.mem_map.mp hks
    have heq : p.2.map Prod.fst = q'.2.map Prod.fst :=
      (congrArg Prod.snd hq'eq).symm
    rw [heq]
    exact hcols q' hq'

/-- C10, witness at Scenario A. -/
theorem c10_witness :
    ((initTranslationProbabilities scenarioA).map Prod.fst).Perm
      (getWords scenarioA).A ∧
    keyShape (initTranslationProbabilities scenarioA) =
      keyShape (initTranslationProbabilities scenarioA) :=
  ⟨by decide,
   (c10_key_shape scenarioA (initTranslationProbabilities scenarioA)
     (initTranslationProbabilities scenarioA) (by decide)
     (by decide) (by decide)).1⟩

/-! ## Error classification: every exception the trainer raises is a
`ZeroDivisionError` -/

theorem innerStep_error (tp : Table) (e : String) (st : CT) (f : String)
    (err : PyErr) (h : innerStep tp e st f = .error err) :
    err = .zeroDivisionError := by
  unfold innerStep at h
  rcases hq : pydiv (tlookup tp e f) (st.2 e) with e' | q
  · rw [hq, except_bind_error] at h
    have he := pydiv_error hq
    rwa [Except.error.inj h] at he
  · rw [hq, except_bind_ok] at h
    exact Except.noConfusion h

theorem pairStep_error (tp : Table) (st : CT) (p : String × String)
    (err : PyErr) (h : pairStep tp st p = .error err) :
    err = .zeroDivisionError := by
  unfold pairStep at h
  exact foldlM_error_zero _ _
    (fun s x e'' _ h' => foldlM_error_zero (innerStep tp x) _
      (fun s' y e3 _ h3 => innerStep_error tp x s' y e3 h3) s e'' h')
    _ _ h

theorem pairPhase_error (corpus : List (String × String)) (tp : Table)
    (err : PyErr) (h : pairPhase corpus tp = .error err) :
    err = .zeroDivisionError := by
  unfold pairPhase at h
  exact foldlM_error_zero _ _
    (fun s x e'' _ h' => pairStep_error tp s x e'' h') _ _ h

theorem normalizeStep_error (words : Words) (c : String → String → ℚ)
    (tt : String → ℚ) (prev : Table) (err : PyErr)
    (h : normalizeStep words c tt prev = .error err) :
    err = .zeroDivisionError := by
  unfold normalizeStep at h
  refine foldlM_error_zero _ _ (fun s f e'' _ h' => ?_) _ _ h
  refine foldlM_error_zero _ _ (fun s' e e3 _ h3 => ?_) _ _ h'
  rcases hq : pydiv (c e f) (tt f) with e4 | q
  · rw [hq, except_bind_error] at h3
    have he := pydiv_error hq
    rwa [Except.error.inj h3] at he
  · rw [hq, except_bind_ok] at h3
    exact Except.noConfusion h3

theorem trainIteration_error (corpus : List (String × String)) (words : Words)
    (prev : Table) (err : PyErr)
    (h : trainIteration corpus words prev = .error err) :
    err = .zeroDivisionError := by
  rcases hp : pairPhase corpus prev with e | ct
  · rw [trainIteration_of_pairPhase_error hp] at h
    have he := pairPhase_error corpus prev e hp
    rwa [Except.error.inj h] at he
  · obtain ⟨c, tt⟩ := ct
    rw [trainIteration_of_pairPhase_ok hp] at h
    exact normalizeStep_error words c tt prev err h

theorem trainLoop_error (corpus : List (String × String)) (words : Words)
    (dist : Table → Table → ℚ) (epsilon : ℚ) (fuel : ℕ) :
    ∀ (prev : Table) (i : ℕ) (err : PyErr),
      trainLoop corpus words dist epsilon fuel prev i = .error err →
      err = .zeroDivisionError := by
  induction fuel with
  | zero =>
    intro prev i err h
    exact Except.noConfusion h
  | succ fuel ih =>
    intro prev i err h
    rcases hit : trainIteration corpus words prev with e | t1
    · rw [trainLoop, hit, except_bind_error] at h
      have he := trainIteration_error corpus words prev e hit
      rwa [Except.error.inj h] at he
    · rw [trainLoop, hit, except_bind_ok] at h
      by_cases hc : isConverged dist prev t1 epsilon
      · rw [if_pos hc] at h
        exact Except.noConfusion h
      · rw [if_neg hc] at h
        exact ih t1 (i + 1) err h

/-! ## Claim C7 — zero `Totals[f]` at the final normalization -/

theorem normalizeStep_ok_totals (words : Words) (c : String → String → ℚ)
    (tt : String → ℚ) (prev u : Table) (hA : words.A ≠ [])
    (h : normalizeStep words c tt prev = .ok u) :
    ∀ f ∈ words.B, tt f ≠ 0 := by
  intro f hf
  unfold normalizeStep at h
  obtain ⟨tb, tb', hstep⟩ := foldlM_all_ok _ words.B prev u h f hf
  obtain ⟨e0, A', hAeq⟩ := List.exists_cons_of_ne_nil hA
  obtain ⟨s, s', hInner⟩ :=
    foldlM_all_ok _ words.A tb tb' hstep e0 (by rw [hAeq]; simp)
  rcases hq : pydiv (c e0 f) (tt f) with e' | q
  · rw [hq, except_bind_error] at hInner
    exact Except.noConfusion hInner
  · exact pydiv_ok_ne_zero hq

/-- C7, counterexample: on the corpus `[{"A": "a", "B": "x"}, {"A": "",
"B": "y"}]` the word `y` ends the pair loop with `Totals[y] = 0`, and the
EM pass then raises `ZeroDivisionError` instead of producing
`P[e][y] = 0`. -/
theorem c7_counterexample :
    totalsAt emptyACorpus (initTranslationProbabilities emptyACorpus) "y"
      = .ok 0 ∧
    "y" ∈ (getWords emptyACorpus).B ∧
    trainIteration emptyACorpus (getWords emptyACorpus)
      (initTranslationProbabilities emptyACorpus)
      = .error .zeroDivisionError := by
  decide

/-- C7 (amended): whenever the pair loop completes with `Totals[f] = 0`
for some source word `f` while the target vocabulary is non-empty, the
final normalization divides `Counts[e][f]` by that zero and the whole EM
pass fails with `ZeroDivisionError` — the code never substitutes
`P[e][f] = 0`. -/
theorem c7_zero_total_error (corpus : List (String × String)) (prev : Table)
    (f0 : String) (hA : (getWords corpus).A ≠ [])
    (hf : f0 ∈ (getWords corpus).B)
    (h0 : totalsAt corpus prev f0 = .ok 0) :
    trainIteration corpus (getWords corpus) prev
      = .error .zeroDivisionError := by
  rcases hp : pairPhase corpus prev with e | ct
  · rw [totalsAt, hp] at h0
    exact Except.noConfusion h0
  · obtain ⟨c, tt⟩ := ct
    rw [totalsAt, hp] at h0
    have htt : tt f0 = 0 := Except.ok.inj h0
    rw [trainIteration_of_pairPhase_ok hp]
    rcases hn : normalizeStep (getWords corpus) c tt prev with e' | u
    · rw [normalizeStep_error (getWords corpus) c tt prev e' hn]
    · exact absurd htt
        (normalizeStep_ok_totals (getWords corpus) c tt prev u hA hn f0 hf)

/-- C7, witness: the amended behaviour at the concrete empty-`A` corpus. -/
theorem c7_witness :
    (getWords emptyACorpus).A ≠ [] ∧ "y" ∈ (getWords emptyACorpus).B ∧
    trainIteration emptyACorpus (getWords emptyACorpus)
      (initTranslationProbabilities emptyACorpus)
      = .error .zeroDivisionError :=
  ⟨by decide, by decide,
   c7_zero_total_error emptyACorpus (initTranslationProbabilities emptyACorpus)
     "y" (by decide) (by decide) (by decide)⟩

/-! ## Claim C1 — the EM pass against the reference update

Throughout this development `tp` is the previous probability table, `A`
and `B` the two vocabularies, `hpos` positivity of `tp` on `A × B`, and
`hdisj` disjointness of the two vocabularies (the amendment: the single
`totals` dict of the source makes the two accumulators collide on shared
strings). -/

theorem fupd_fupd (t : String → ℚ) (k : String) (a b : ℚ) :
    fupd (fupd t k a) k b = fupd t k b := by
  funext k'
  by_cases h : k' = k <;> simp [fupd, h]

theorem inner_sum_fold (tp : Table) (fs : List String) (e : String) :
    ∀ (t : String → ℚ) (c : ℚ),
      fs.foldl (fun t' f => fupd t' e (t' e + tlookup tp e f)) (fupd t e c)
        = fupd t e (c + (fs.map (tlookup tp e)).sum) := by
  induction fs with
  | nil => intro t c; simp
  | cons f fs ih =>
    intro t c
    have h1 : fupd (fupd t e c) e (fupd t e c e + tlookup tp e f)
        = fupd t e (c + tlookup tp e f) := by
      rw [fupd_fupd, fupd_same]
    calc (f :: fs).foldl (fun t' f => fupd t' e (t' e + tlookup tp e f)) (fupd t e c)
        = fs.foldl (fun t' f => fupd t' e (t' e + tlookup tp e f))
            (fupd t e (c + tlookup tp e f)) := by rw [List.foldl_cons, h1]
      _ = fupd t e ((c + tlookup tp e f) + (fs.map (tlookup tp e)).sum) := ih t _
      _ = fupd t e (c + ((f :: fs).map (tlookup tp e)).sum) := by
          rw [List.map_cons, List.sum_cons, add_assoc]

theorem phase1_eval (tp : Table) (es fs : List String) :
    ∀ (t0 : String → ℚ) (k : String),
      (es.foldl (fun t e =>
        fs.foldl (fun t' f => fupd t' e (t' e + tlookup tp e f)) (fupd t e 0)) t0) k
        = if k ∈ es then refTotalE tp fs k else t0 k := by
  induction es with
  | nil => intro t0 k; simp
  | cons e es ih =>
    intro t0 k
    rw [List.foldl_cons, inner_sum_fold tp fs e t0 0, zero_add, ih]
    by_cases hk : k ∈ es
    · simp [hk]
    · by_cases hke : k = e
      · subst hke
        simp [hk, fupd_same, refTotalE]
      · simp [hk, hke, fupd_other _ _ _ _ hke]

theorem refTotalE_pos (tp : Table) (A B : List String)
    (hpos : ∀ e ∈ A, ∀ f ∈ B, 0 < tlookup tp e f)
    (fs : List String) (hfs : ∀ f ∈ fs, f ∈ B)
    (e : String) (he : e ∈ A) (f : String) (hf : f ∈ fs) :
    0 < refTotalE tp fs e := by
  have hnn : ∀ x ∈ fs.map (tlookup tp e), 0 ≤ x := by
    intro x hx
    obtain ⟨f', hf', rfl⟩ := List.mem_map.mp hx
    exact le_of_lt (hpos e he f' (hfs f' hf'))
  have hmem : tlookup tp e f ∈ fs.map (tlookup tp e) :=
    List.mem_map_of_mem _ hf
  exact lt_of_lt_of_le (hpos e he f (hfs f hf))
    (List.single_le_sum hnn _ hmem)

theorem mem_getWordsA {corpus : List (String × String)} {p : String × String}
    {e : String} (hp : p ∈ corpus) (he : e ∈ pySplit p.1) :
    e ∈ (getWords corpus).A :=
  List.mem_dedup.mpr (List.mem_flatMap.mpr ⟨p, hp, he⟩)

theorem mem_getWordsB {corpus : List (String × String)} {p : String × String}
    {f : String} (hp : p ∈ corpus) (hf : f ∈ pySplit p.2) :
    f ∈ (getWords corpus).B :=
  List.mem_dedup.mpr (List.mem_flatMap.mpr ⟨p, hp, hf⟩)

theorem getWordsA_mem {corpus : List (String × String)} {e : String}
    (he : e ∈ (getWords corpus).A) :
    ∃ p ∈ corpus, e ∈ pySplit p.1 := by
  obtain ⟨p, hp, he'⟩ := List.mem_flatMap.mp (List.mem_dedup.mp he)
  exact ⟨p, hp, he'⟩

theorem getWordsB_mem {corpus : List (String × String)} {f : String}
    (hf : f ∈ (getWords corpus).B) :
    ∃ p ∈ corpus, f ∈ pySplit p.2 := by
  obtain ⟨p, hp, hf'⟩ := List.mem_flatMap.mp (List.mem_dedup.mp hf)
  exact ⟨p, hp, hf'⟩

theorem innerStep_ok (tp : Table) (e : String) (st : CT) (f : String)
    (h : st.2 e ≠ 0) :
    innerStep tp e st f = .ok
      (fupd2 st.1 e f (st.1 e f + tlookup tp e f / st.2 e),
       fupd st.2 f (st.2 f + tlookup tp e f / st.2 e)) := by
  unfold innerStep
  rw [pydiv_ok h, except_bind_ok]
  rfl

theorem phase2_sim (tp : Table) (A B : List String)
    (hpos : ∀ e ∈ A, ∀ f ∈ B, 0 < tlookup tp e f)
    (hdisj : ∀ a ∈ A, a ∉ B) (es fs : List String)
    (hes : ∀ e ∈ es, e ∈ A) (hfs : ∀ f ∈ fs, f ∈ B)
    (c0 : String → String → ℚ) (t0 : String → ℚ) (r : CT)
    (hc : c0 = r.1) (ht : ∀ k ∈ B, t0 k = r.2 k)
    (hTe : ∀ e ∈ es, t0 e = refTotalE tp fs e) :
    ∃ s', es.foldlM (fun st' e => fs.foldlM (innerStep tp e) st') (c0, t0) = .ok s' ∧
      s'.1 = (es.foldl (fun st' e => fs.foldl (fun st'' f =>
        (fupd2 st''.1 e f (st''.1 e f + tlookup tp e f / refTotalE tp fs e),
         fupd st''.2 f (st''.2 f + tlookup tp e f / refTotalE tp fs e))) st') r).1 ∧
      ∀ k ∈ B, s'.2 k = (es.foldl (fun st' e => fs.foldl (fun st'' f =>
        (fupd2 st''.1 e f (st''.1 e f + tlookup tp e f / refTotalE tp fs e),
         fupd st''.2 f (st''.2 f + tlookup tp e f / refTotalE tp fs e))) st') r).2 k := by
  obtain ⟨s', hok, hR⟩ := foldlM_sim
    (fun (si ri : CT) => si.1 = ri.1 ∧ (∀ k ∈ B, si.2 k = ri.2 k) ∧
      ∀ e ∈ es, si.2 e = refTotalE tp fs e)
    (fun st' e => fs.foldlM (innerStep tp e) st')
    (fun st' e => fs.foldl (fun st'' f =>
      (fupd2 st''.1 e f (st''.1 e f + tlookup tp e f / refTotalE tp fs e),
       fupd st''.2 f (st''.2 f + tlookup tp e f / refTotalE tp fs e))) st')
    es (c0, t0) r ⟨hc, ht, hTe⟩ (by
      intro si ri e he hRi
      refine foldlM_sim
        (fun (sj rj : CT) => sj.1 = rj.1 ∧ (∀ k ∈ B, sj.2 k = rj.2 k) ∧
          ∀ e' ∈ es, sj.2 e' = refTotalE tp fs e')
        (innerStep tp e) _ fs si ri hRi ?_
      intro sj rj f hf hRj
      have hTej : sj.2 e = refTotalE tp fs e := hRj.2.2 e he
      have hpos' : 0 < refTotalE tp fs e :=
        refTotalE_pos tp A B hpos fs hfs e (hes e he) f hf
      have hne : sj.2 e ≠ 0 := by rw [hTej]; exact ne_of_gt hpos'
      refine ⟨_, innerStep_ok tp e sj f hne, ?_, ?_, ?_⟩
      · simp only [hTej]
        rw [hRj.1]
      · intro k hk
        have hrw : sj.2 f = rj.2 f := hRj.2.1 f (hfs f hf)
        by_cases hkf : k = f
        · subst hkf
          simp only [fupd_same, hTej, hrw]
        · simp only [fupd_other _ _ _ _ hkf]
          exact hRj.2.1 k hk
      · intro e' he'
        have hne' : e' ≠ f := by
          intro hcontra
          exact hdisj e' (hes e' he') (hcontra ▸ hfs f hf)
        simp only [fupd_other _ _ _ _ hne']
        exact hRj.2.2 e' he')
  exact ⟨s', hok, hR.1, hR.2.1⟩

theorem pairStep_sim (tp : Table) (A B : List String)
    (hpos : ∀ e ∈ A, ∀ f ∈ B, 0 < tlookup tp e f)
    (hdisj : ∀ a ∈ A, a ∉ B) (p : String × String)
    (hes : ∀ e ∈ pySplit p.1, e ∈ A) (hfs : ∀ f ∈ pySplit p.2, f ∈ B)
    (s r : CT) (h1 : s.1 = r.1) (h2 : ∀ k ∈ B, s.2 k = r.2 k) :
    ∃ s', pairStep tp s p = .ok s' ∧ s'.1 = (refPairStep tp r p).1 ∧
      ∀ k ∈ B, s'.2 k = (refPairStep tp r p).2 k := by
  have hT : ∀ e ∈ pySplit p.1,
      ((pySplit p.1).foldl (fun t e => (pySplit p.2).foldl
        (fun t' f => fupd t' e (t' e + tlookup tp e f)) (fupd t e 0)) s.2) e
        = refTotalE tp (pySplit p.2) e := by
    intro e he
    rw [phase1_eval]
    simp [he]
  have hB : ∀ k ∈ B,
      ((pySplit p.1).foldl (fun t e => (pySplit p.2).foldl
        (fun t' f => fupd t' e (t' e + tlookup tp e f)) (fupd t e 0)) s.2) k
        = r.2 k := by
    intro k hk
    rw [phase1_eval]
    have hnmem : k ∉ pySplit p.1 := fun hmem => hdisj k (hes k hmem) hk
    simp only [hnmem, if_false]
    exact h2 k hk
  obtain ⟨s', hok, hc', ht'⟩ := phase2_sim tp A B hpos hdisj
    (pySplit p.1) (pySplit p.2) hes hfs s.1 _ r h1 hB hT
  exact ⟨s', hok, hc', ht'⟩

theorem pairPhase_sim (tp : Table) (A B : List String)
    (hpos : ∀ e ∈ A, ∀ f ∈ B, 0 < tlookup tp e f)
    (hdisj : ∀ a ∈ A, a ∉ B) (corpus : List (String × String))
    (hgood : ∀ p ∈ corpus,
      (∀ e ∈ pySplit p.1, e ∈ A) ∧ (∀ f ∈ pySplit p.2, f ∈ B)) :
    ∃ s, pairPhase corpus tp = .ok s ∧
      s.1 = (refAccumulate corpus tp).1 ∧
      ∀ k ∈ B, s.2 k = (refAccumulate corpus tp).2 k := by
  obtain ⟨s, hok, hR⟩ := foldlM_sim
    (fun (si ri : CT) => si.1 = ri.1 ∧ ∀ k ∈ B, si.2 k = ri.2 k)
    (pairStep tp) (refPairStep tp) corpus
    (fun _ _ => 0, fun _ => 0) (fun _ _ => 0, fun _ => 0)
    ⟨rfl, fun _ _ => rfl⟩ (by
      intro si ri q hq hRi
      exact pairStep_sim tp A B hpos hdisj q (hgood q hq).1 (hgood q hq).2
        si ri hRi.1 hRi.2)
  exact ⟨s, hok, hR.1, hR.2⟩

theorem ref_inner_mono (tp : Table) (A B : List String)
    (hpos : ∀ e ∈ A, ∀ f ∈ B, 0 < tlookup tp e f)
    (fs : List String) (hfs : ∀ f ∈ fs, f ∈ B)
    (e : String) (he : e ∈ A) :
    ∀ (l : List String), (∀ f ∈ l, f ∈ fs) → ∀ (st : CT) (k : String),
      st.2 k ≤ (l.foldl (fun st'' f =>
        (fupd2 st''.1 e f (st''.1 e f + tlookup tp e f / refTotalE tp fs e),
         fupd st''.2 f (st''.2 f + tlookup tp e f / refTotalE tp fs e))) st).2 k := by
  intro l
  induction l with
  | nil => intro _ st k; exact le_refl _
  | cons f l ih =>
    intro hl st k
    rw [List.foldl_cons]
    refine le_trans ?_ (ih (fun f' hf' => hl f' (by simp [hf'])) _ k)
    have hfmem : f ∈ fs := hl f (by simp)
    have hq : 0 ≤ tlookup tp e f / refTotalE tp fs e :=
      le_of_lt (div_pos (hpos e he f (hfs f hfmem))
        (refTotalE_pos tp A B hpos fs hfs e he f hfmem))
    by_cases hk : k = f
    · subst hk
      simp only [fupd_same]
      linarith
    · simp only [fupd_other _ _ _ _ hk]
      exact le_refl _

theorem ref_inner_strict (tp : Table) (A B : List String)
    (hpos : ∀ e ∈ A, ∀ f ∈ B, 0 < tlookup tp e f)
    (fs : List String) (hfs : ∀ f ∈ fs, f ∈ B)
    (e : String) (he : e ∈ A) (f0 : String) :
    ∀ (l : List String), f0 ∈ l → (∀ f ∈ l, f ∈ fs) → ∀ (st : CT),
      st.2 f0 < (l.foldl (fun st'' f =>
        (fupd2 st''.1 e f (st''.1 e f + tlookup tp e f / refTotalE tp fs e),
         fupd st''.2 f (st''.2 f + tlookup tp e f / refTotalE tp fs e))) st).2 f0 := by
  intro l
  induction l with
  | nil => intro h0; simp at h0
  | cons f l ih =>
    intro h0 hl st
    rw [List.foldl_cons]
    by_cases hf : f = f0
    · subst hf
      refine lt_of_lt_of_le ?_
        (ref_inner_mono tp A B hpos fs hfs e he l
          (fun f' hf' => hl f' (by simp [hf'])) _ f)
      have hfmem : f ∈ fs := hl f (by simp)
      have hq : 0 < tlookup tp e f / refTotalE tp fs e :=
        div_pos (hpos e he f (hfs f hfmem))
          (refTotalE_pos tp A B hpos fs hfs e he f hfmem)
      simp only [fupd_same]
      linarith
    · have h0' : f0 ∈ l := by
        rcases List.mem_cons.mp h0 with rfl | h'
        · exact absurd rfl hf
        · exact h'
      have hrec := ih h0' (fun f' hf' => hl f' (by simp [hf']))
        ((fupd2 st.1 e f (st.1 e f + tlookup tp e f / refTotalE tp fs e),
          fupd st.2 f (st.2 f + tlookup tp e f / refTotalE tp fs e)))
      have hne2 : f0 ≠ f := fun h => hf h.symm
      rw [show (fupd2 st.1 e f (st.1 e f + tlookup tp e f / refTotalE tp fs e),
          fupd st.2 f (st.2 f + tlookup tp e f / refTotalE tp fs e)).2
          = fupd st.2 f (st.2 f + tlookup tp e f / refTotalE tp fs e) from rfl,
        fupd_other _ _ _ _ hne2] at hrec
      exact hrec

theorem ref_outer_mono (tp : Table) (A B : List String)
    (hpos : ∀ e ∈ A, ∀ f ∈ B, 0 < tlookup tp e f)
    (fs : List String) (hfs : ∀ f ∈ fs, f ∈ B) :
    ∀ (l : List String), (∀ e ∈ l, e ∈ A) → ∀ (st : CT) (k : String),
      st.2 k ≤ (l.foldl (fun st' e => fs.foldl (fun st'' f =>
        (fupd2 st''.1 e f (st''.1 e f + tlookup tp e f / refTotalE tp fs e),
         fupd st''.2 f (st''.2 f + tlookup tp e f / refTotalE tp fs e))) st') st).2 k := by
  intro l
  induction l with
  | nil => intro _ st k; exact le_refl _
  | cons e l ih =>
    intro hl st k
    rw [List.foldl_cons]
    refine le_trans
      (ref_inner_mono tp A B hpos fs hfs e (hl e (by simp)) fs
        (fun f hf => hf) st k)
      (ih (fun e' he' => hl e' (by simp [he'])) _ k)

theorem refPairStep_totals_mono (tp : Table) (A B : List String)
    (hpos : ∀ e ∈ A, ∀ f ∈ B, 0 < tlookup tp e f)
    (p : String × String)
    (hes : ∀ e ∈ pySplit p.1, e ∈ A) (hfs : ∀ f ∈ pySplit p.2, f ∈ B)
    (st : CT) (k : String) :
    st.2 k ≤ (refPairStep tp st p).2 k :=
  ref_outer_mono tp A B hpos (pySplit p.2) hfs (pySplit p.1) hes st k

theorem refPairStep_totals_strict (tp : Table) (A B : List String)
    (hpos : ∀ e ∈ A, ∀ f ∈ B, 0 < tlookup tp e f)
    (p : String × String)
    (hes : ∀ e ∈ pySplit p.1, e ∈ A) (hfs : ∀ f ∈ pySplit p.2, f ∈ B)
    (hne : pySplit p.1 ≠ []) (f0 : String) (hf0 : f0 ∈ pySplit p.2)
    (st : CT) :
    st.2 f0 < (refPairStep tp st p).2 f0 := by
  obtain ⟨e0, es', hAeq⟩ := List.exists_cons_of_ne_nil hne
  show st.2 f0 < ((pySplit p.1).foldl (fun st' e =>
    (pySplit p.2).foldl (fun st'' f =>
      (fupd2 st''.1 e f (st''.1 e f + tlookup tp e f / refTotalE tp (pySplit p.2) e),
       fupd st''.2 f (st''.2 f + tlookup tp e f / refTotalE tp (pySplit p.2) e))) st') st).2 f0
  rw [hAeq, List.foldl_cons]
  refine lt_of_lt_of_le
    (ref_inner_strict tp A B hpos (pySplit p.2) hfs e0
      (hes e0 (by rw [hAeq]; simp)) f0 (pySplit p.2) hf0 (fun f hf => hf) st)
    (ref_outer_mono tp A B hpos (pySplit p.2) hfs es'
      (fun e' he' => hes e' (by rw [hAeq]; simp [he'])) _ f0)

theorem refAccumulate_totals_mono (tp : Table) (A B : List String)
    (hpos : ∀ e ∈ A, ∀ f ∈ B, 0 < tlookup tp e f) :
    ∀ (l : List (String × String)),
      (∀ p ∈ l, (∀ e ∈ pySplit p.1, e ∈ A) ∧ (∀ f ∈ pySplit p.2, f ∈ B)) →
      ∀ (st : CT) (k : String), st.2 k ≤ (l.foldl (refPairStep tp) st).2 k := by
  intro l
  induction l with
  | nil => intro _ st k; exact le_refl _
  | cons p l ih =>
    intro hgood st k
    rw [List.foldl_cons]
    refine le_trans
      (refPairStep_totals_mono tp A B hpos p (hgood p (by simp)).1
        (hgood p (by simp)).2 st k)
      (ih (fun q hq => hgood q (by simp [hq])) _ k)

theorem refAccumulate_totals_pos (tp : Table) (A B : List String)
    (hpos : ∀ e ∈ A, ∀ f ∈ B, 0 < tlookup tp e f) :
    ∀ (l : List (String × String)),
      (∀ p ∈ l, (∀ e ∈ pySplit p.1, e ∈ A) ∧ (∀ f ∈ pySplit p.2, f ∈ B)) →
      (∀ p ∈ l, pySplit p.1 ≠ []) →
      ∀ (f : String), (∃ p ∈ l, f ∈ pySplit p.2) →
      ∀ (st : CT), 0 ≤ st.2 f → 0 < (l.foldl (refPairStep tp) st).2 f := by
  intro l
  induction l with
  | nil =>
    intro _ _ f hf
    obtain ⟨p, hp, -⟩ := hf
    simp at hp
  | cons p l ih =>
    intro hgood hA f hf st h0
    rw [List.foldl_cons]
    by_cases hfp : f ∈ pySplit p.2
    · calc (0 : ℚ) ≤ st.2 f := h0
        _ < (refPairStep tp st p).2 f :=
          refPairStep_totals_strict tp A B hpos p (hgood p (by simp)).1
            (hgood p (by simp)).2 (hA p (by simp)) f hfp st
        _ ≤ (l.foldl (refPairStep tp) (refPairStep tp st p)).2 f :=
          refAccumulate_totals_mono tp A B hpos l
            (fun q hq => hgood q (by simp [hq])) _ f
    · obtain ⟨q, hq, hfq⟩ := hf
      rcases List.mem_cons.mp hq with rfl | hq'
      · exact absurd hfq hfp
      · refine ih (fun q' hq'' => hgood q' (by simp [hq'']))
          (fun q' hq'' => hA q' (by simp [hq''])) f ⟨q, hq', hfq⟩ _ ?_
        exact le_trans h0 (refPairStep_totals_mono tp A B hpos p
          (hgood p (by simp)).1 (hgood p (by simp)).2 st f)

theorem normalize_inner (c : String → String → ℚ) (tt : String → ℚ)
    (f : String) (hdiv : tt f ≠ 0) :
    ∀ (as : List String) (tb : Table), (∀ e ∈ as, e ∈ tb.map Prod.fst) →
      ∃ u, as.foldlM (fun t' e => do
          let q ← pydiv (c e f) (tt f)
          return tset t' e f q) tb = .ok u ∧
        (∀ e ∈ as, tlookup u e f = c e f / tt f) ∧
        (∀ e' f', (f' ≠ f ∨ e' ∉ as) → tlookup u e' f' = tlookup tb e' f') ∧
        u.map Prod.fst = tb.map Prod.fst := by
  intro as
  induction as with
  | nil =>
    intro tb _
    exact ⟨tb, rfl, by simp, fun _ _ _ => rfl, rfl⟩
  | cons e as ih =>
    intro tb hmem
    have hstep : (do
        let q ← pydiv (c e f) (tt f)
        return tset tb e f q : Except PyErr Table) = .ok (tset tb e f (c e f / tt f)) := by
      rw [pydiv_ok hdiv, except_bind_ok]
      rfl
    have hmem' : ∀ e' ∈ as, e' ∈ (tset tb e f (c e f / tt f)).map Prod.fst := by
      intro e' he'
      rw [tset_keys]
      exact hmem e' (by simp [he'])
    obtain ⟨u, hok, hval, hframe, hkeys⟩ := ih (tset tb e f (c e f / tt f)) hmem'
    refine ⟨u, ?_, ?_, ?_, ?_⟩
    · rw [List.foldlM_cons, hstep, except_bind_ok]
      exact hok
    · intro e' he'
      rcases List.mem_cons.mp he' with rfl | he''
      · by_cases hin : e' ∈ as
        · exact hval e' hin
        · rw [hframe e' f (Or.inr hin)]
          exact tset_tlookup_same tb e' f _ (hmem e' (by simp))
      · exact hval e' he''
    · intro e' f' hor
      have hor' : f' ≠ f ∨ e' ∉ as := by
        rcases hor with h | h
        · exact Or.inl h
        · exact Or.inr (fun hc => h (by simp [hc]))
      rw [hframe e' f' hor']
      have hor'' : e' ≠ e ∨ f' ≠ f := by
        rcases hor with h | h
        · exact Or.inr h
        · exact Or.inl (fun hc => h (by simp [hc]))
      exact tset_tlookup_other tb e f e' f' _ hor''
    · rw [hkeys, tset_keys]

theorem normalize_outer (c : String → String → ℚ) (tt : String → ℚ)
    (as : List String) :
    ∀ (bs : List String) (tb : Table), bs.Nodup → (∀ f ∈ bs, tt f ≠ 0) →
      (∀ e ∈ as, e ∈ tb.map Prod.fst) →
      ∃ u, bs.foldlM (fun t f => as.foldlM (fun t' e => do
          let q ← pydiv (c e f) (tt f)
          return tset t' e f q) t) tb = .ok u ∧
        (∀ e ∈ as, ∀ f ∈ bs, tlookup u e f = c e f / tt f) ∧
        (∀ e' f', f' ∉ bs → tlookup u e' f' = tlookup tb e' f') ∧
        u.map Prod.fst = tb.map Prod.fst := by
  intro bs
  induction bs with
  | nil =>
    intro tb _ _ _
    exact ⟨tb, rfl, by simp, fun _ _ _ => rfl, rfl⟩
  | cons f bs ih =>
    intro tb hnd hdiv hmem
    obtain ⟨u1, hok1, hval1, hframe1, hkeys1⟩ :=
      normalize_inner c tt f (hdiv f (by simp)) as tb hmem
    have hmem1 : ∀ e ∈ as, e ∈ u1.map Prod.fst := by
      intro e he
      rw [hkeys1]
      exact hmem e he
    obtain ⟨u, hok, hval, hframe, hkeys⟩ := ih u1 (List.Nodup.of_cons hnd)
      (fun f' hf' => hdiv f' (by simp [hf'])) hmem1
    have hfnotin : f ∉ bs := (List.nodup_cons.mp hnd).1
    refine ⟨u, ?_, ?_, ?_, ?_⟩
    · rw [List.foldlM_cons, hok1, except_bind_ok]
      exact hok
    · intro e he f' hf'
      rcases List.mem_cons.mp hf' with rfl | hf''
      · rw [hframe e f' hfnotin]
        exact hval1 e he
      · exact hval e he f' hf''
    · intro e' f' hf'
      have hf'bs : f' ∉ bs := fun hc => hf' (by simp [hc])
      have hf'f : f' ≠ f := fun hc => hf' (by simp [hc])
      rw [hframe e' f' hf'bs]
      exact hframe1 e' f' (Or.inl hf'f)
    · rw [hkeys, hkeys1]

/-- C1 (amended): for a well-formed corpus (both sentences of every pair
non-empty after tokenization) whose two vocabularies are *disjoint as
string sets*, and any previous table positive on the vocabulary
cross-product, `trainIteration` succeeds and agrees at every vocabulary
pair `(e, f)` with the reference EM update of spec §4.3 computed with
*distinct* Counts and Totals accumulators: the per-token normalizer
`total_e` ranges over the pair's own source tokens, `Counts[e][f]` and
`Totals[f]` accumulate `P[e][f]/total_e` over the full cross product, and
the new table is `Counts[e][f]/Totals[f]`.  (Disjointness is necessary:
the source keeps both accumulator families in the single dict `totals`,
and a string occurring in both vocabularies makes them collide — see the
counterexample.) -/
theorem c1_em_pass (corpus : List (String × String)) (prev : Table)
    (hpos : ∀ e ∈ (getWords corpus).A, ∀ f ∈ (getWords corpus).B,
      0 < tlookup prev e f)
    (hwf : ∀ p ∈ corpus, pySplit p.1 ≠ [] ∧ pySplit p.2 ≠ [])
    (hdisj : ∀ a ∈ (getWords corpus).A, a ∉ (getWords corpus).B) :
    ∃ t, trainIteration corpus (getWords corpus) prev = .ok t ∧
      ∀ e ∈ (getWords corpus).A, ∀ f ∈ (getWords corpus).B,
        tlookup t e f = tlookup (refIteration corpus prev) e f := by
  have hgood : ∀ p ∈ corpus, (∀ e ∈ pySplit p.1, e ∈ (getWords corpus).A) ∧
      (∀ f ∈ pySplit p.2, f ∈ (getWords corpus).B) :=
    fun p hp => ⟨fun e he => mem_getWordsA hp he,
                 fun f hf => mem_getWordsB hp hf⟩
  obtain ⟨s, hpair, hcs, hts⟩ :=
    pairPhase_sim prev (getWords corpus).A (getWords corpus).B hpos hdisj
      corpus hgood
  obtain ⟨cc, tt⟩ := s
  have httpos : ∀ f ∈ (getWords corpus).B, tt f ≠ 0 := by
    intro f hf
    have hposf : 0 < (refAccumulate corpus prev).2 f :=
      refAccumulate_totals_pos prev (getWords corpus).A (getWords corpus).B
        hpos corpus hgood (fun p hp => (hwf p hp).1) f (getWordsB_mem hf)
        (fun _ _ => 0, fun _ => 0) (le_refl 0)
    have htt : tt f = (refAccumulate corpus prev).2 f := hts f hf
    rw [htt]
    exact ne_of_gt hposf
  have hkeys : ∀ e ∈ (getWords corpus).A, e ∈ prev.map Prod.fst := by
    intro e he
    obtain ⟨p, hp, hep⟩ := getWordsA_mem he
    obtain ⟨f0, hf0⟩ := List.exists_mem_of_ne_nil _ (hwf p hp).2
    have hf0B : f0 ∈ (getWords corpus).B := mem_getWordsB hp hf0
    exact tlookup_mem_of_ne_zero prev e f0 (ne_of_gt (hpos e he f0 hf0B))
  have hnodupB : (getWords corpus).B.Nodup := List.nodup_dedup _
  obtain ⟨u, hok, hval, hframe, hkeysu⟩ :=
    normalize_outer cc tt (getWords corpus).A (getWords corpus).B prev
      hnodupB httpos hkeys
  refine ⟨u, ?_, ?_⟩
  · rw [trainIteration_of_pairPhase_ok hpair]
    exact hok
  · intro e he f hf
    have href : tlookup (refIteration corpus prev) e f
        = (refAccumulate corpus prev).1 e f / (refAccumulate corpus prev).2 f :=
      tlookup_map (getWords corpus).A (getWords corpus).B
        (fun e f => (refAccumulate corpus prev).1 e f /
          (refAccumulate corpus prev).2 f) e f he hf
    rw [hval e he f hf, href]
    have hcc : cc = (refAccumulate corpus prev).1 := hcs
    have htt : tt f = (refAccumulate corpus prev).2 f := hts f hf
    rw [hcc, htt]

/-- C1, counterexample: on the corpus `[{"A": "x", "B": "x y"}]` — well
formed, with the uniform table positive on the vocabulary product — the
string `x` occurs in both vocabularies, the single `totals` dict of the
source makes the per-token normalizer and the global accumulator collide,
and the pass returns `P[x][x] = 1/5` where the reference EM update of
spec §4.3 yields `P[x][x] = 1`. -/
theorem c1_counterexample :
    (∀ p ∈ overlapCorpus, pySplit p.1 ≠ [] ∧ pySplit p.2 ≠ []) ∧
    (∀ e ∈ (getWords overlapCorpus).A, ∀ f ∈ (getWords overlapCorpus).B,
      0 < tlookup (initTranslationProbabilities overlapCorpus) e f) ∧
    "x" ∈ (getWords overlapCorpus).A ∧ "x" ∈ (getWords overlapCorpus).B ∧
    trainIteration overlapCorpus (getWords overlapCorpus)
      (initTranslationProbabilities overlapCorpus)
      = .ok [("x", [("x", 1/5), ("y", 1)])] ∧
    tlookup (refIteration overlapCorpus
      (initTranslationProbabilities overlapCorpus)) "x" "x" = 1 ∧
    (1/5 : ℚ) ≠ 1 := by
  decide

/-- C1, witness: Scenario A has disjoint vocabularies, and the pass agrees
with the reference update there. -/
theorem c1_witness :
    (∀ a ∈ (getWords scenarioA).A, a ∉ (getWords scenarioA).B) ∧
    ∃ t, trainIteration scenarioA (getWords scenarioA)
        (initTranslationProbabilities scenarioA) = .ok t ∧
      ∀ e ∈ (getWords scenarioA).A, ∀ f ∈ (getWords scenarioA).B,
        tlookup t e f =
          tlookup (refIteration scenarioA
            (initTranslationProbabilities scenarioA)) e f :=
  ⟨by decide,
   c1_em_pass scenarioA (initTranslationProbabilities scenarioA)
     (by decide) (by decide) (by decide)⟩

/-! ## Claim C6 — empty sentences -/

/-- C6 (amended): training never raises the spec's `CorpusFormatError` —
the only exception the trainer can produce is `ZeroDivisionError`.  With
disjoint vocabularies and a positive previous table, an entry with an
empty *source*-side (`B`) sentence is silently skipped: the EM pass
succeeds whenever every *target*-side (`A`) sentence is non-empty,
however many source sides are empty.  An empty *target*-side sentence, by
contrast, can make the pass fail with `ZeroDivisionError`, as on
`[{"A": "a", "B": "x"}, {"A": "", "B": "y"}]`. -/
theorem c6_empty_sentence (corpus : List (String × String)) (prev : Table)
    (hpos : ∀ e ∈ (getWords corpus).A, ∀ f ∈ (getWords corpus).B,
      0 < tlookup prev e f)
    (hdisj : ∀ a ∈ (getWords corpus).A, a ∉ (getWords corpus).B)
    (hA : ∀ p ∈ corpus, pySplit p.1 ≠ []) :
    (∀ (corpus' : List (String × String)) (dist : Table → Table → ℚ)
      (epsilon : ℚ) (fuel : ℕ),
      trainModel corpus' dist epsilon fuel ≠ .error .corpusFormatError) ∧
    (∃ t, trainIteration corpus (getWords corpus) prev = .ok t) ∧
    trainIteration emptyACorpus (getWords emptyACorpus)
      (initTranslationProbabilities emptyACorpus)
      = .error .zeroDivisionError := by
  refine ⟨?_, ?_, by decide⟩
  · intro corpus' dist epsilon fuel hcontra
    have := trainLoop_error corpus' (getWords corpus') dist epsilon fuel
      (initTranslationProbabilities corpus') 0 .corpusFormatError hcontra
    exact PyErr.noConfusion this
  · have hgood : ∀ p ∈ corpus,
        (∀ e ∈ pySplit p.1, e ∈ (getWords corpus).A) ∧
        (∀ f ∈ pySplit p.2, f ∈ (getWords corpus).B) :=
      fun p hp => ⟨fun e he => mem_getWordsA hp he,
                   fun f hf => mem_getWordsB hp hf⟩
    obtain ⟨s, hpair, hcs, hts⟩ :=
      pairPhase_sim prev (getWords corpus).A (getWords corpus).B hpos hdisj
        corpus hgood
    obtain ⟨cc, tt⟩ := s
    rcases hB : (getWords corpus).B with _ | ⟨f0, B'⟩
    · refine ⟨prev, ?_⟩
      rw [trainIteration_of_pairPhase_ok hpair]
      unfold normalizeStep
      rw [hB]
      rfl
    · have httpos : ∀ f ∈ (getWords corpus).B, tt f ≠ 0 := by
        intro f hf
        have hposf : 0 < (refAccumulate corpus prev).2 f :=
          refAccumulate_totals_pos prev (getWords corpus).A
            (getWords corpus).B hpos corpus hgood hA f (getWordsB_mem hf)
            (fun _ _ => 0, fun _ => 0) (le_refl 0)
        have htt : tt f = (refAccumulate corpus prev).2 f := hts f hf
        rw [htt]
        exact ne_of_gt hposf
      have hkeys : ∀ e ∈ (getWords corpus).A, e ∈ prev.map Prod.fst := by
        intro e he
        have hf0 : f0 ∈ (getWords corpus).B := by rw [hB]; simp
        exact tlookup_mem_of_ne_zero prev e f0
          (ne_of_gt (hpos e he f0 hf0))
      have hnodupB : (getWords corpus).B.Nodup := List.nodup_dedup _
      obtain ⟨u, hok, -, -, -⟩ :=
        normalize_outer cc tt (getWords corpus).A (getWords corpus).B prev
          hnodupB httpos hkeys
      refine ⟨u, ?_⟩
      rw [trainIteration_of_pairPhase_ok hpair]
      exact hok

/-- C6, counterexample: a corpus with an empty-sentence entry on which
training raises `ZeroDivisionError`, not the spec's `CorpusFormatError`. -/
theorem c6_counterexample :
    trainModel emptyACorpus distZero 1 1 = .error .zeroDivisionError ∧
    trainModel emptyACorpus distZero 1 1 ≠ .error .corpusFormatError := by
  decide

/-- C6, witness: a corpus with an empty source-side sentence trains
without any error. -/
theorem c6_witness :
    (∀ p ∈ emptyBCorpus, pySplit p.1 ≠ []) ∧
    pySplit ("b", "").2 = [] ∧ ("b", "") ∈ emptyBCorpus ∧
    ∃ t, trainIteration emptyBCorpus (getWords emptyBCorpus)
        (initTranslationProbabilities emptyBCorpus) = .ok t :=
  ⟨by decide, by decide, by decide,
   (c6_empty_sentence emptyBCorpus
     (initTranslationProbabilities emptyBCorpus)
     (by decide) (by decide) (by decide)).2.1⟩
